import Mathlib

/-!
# Verification of the KudExtract statement-extraction pipeline

A shallow embedding of `src/KudExtract.py`: a linear pipeline that groups
PDF text fragments into lines, parses Danish-formatted numbers, cleans
dates and decorative tokens, tokenizes free text, filters transaction
lines, collapses numeric tokens to the smallest value, and builds records.

Modelling conventions:
* Python floats are modelled as exact rationals (`ℚ`); every quantity the
  program manipulates is a finite decimal, and no claim depends on IEEE
  rounding.
* Python strings are `String`/`List Char`; `str.strip()` and the `\s`
  class use the six ASCII whitespace characters (the inputs in scope are
  ASCII).
* The three regular expressions of the source are compiled by hand into
  deterministic scanners.  For each pattern the greedy scan is complete
  (no backtracking alternative can succeed where the greedy one fails),
  which is argued at the definition site.
* `re.match` anchors at the start; `$` matches at the end or before a
  final newline.  Each scanner is applied either to stripped input (no
  trailing newline exists) or to a pattern whose trailing `\s*` absorbs a
  final newline, so "end of string" semantics is exact.
* Fallible Python code (an `AttributeError` on a non-string) is modelled
  with `Except Unit`.
-/

/-- The six characters Python's `str.strip()` and `re`'s `\s` treat as
whitespace in the ASCII range. -/
def isPySpace (c : Char) : Bool :=
  c = ' ' || c = '\t' || c = '\n' || c = '\r' || c = '\x0b' || c = '\x0c'

/-- `\w` of the tokenizer: ASCII alphanumerics, underscore, and any
codepoint beyond ASCII (the statements contain Danish letters, which `\w`
accepts; no non-ASCII punctuation occurs). -/
def isWordChar (c : Char) : Bool :=
  c.isAlphanum || c = '_' || 127 < c.val

/-- `str.strip()`: drop leading and trailing whitespace. -/
def stripChars (cs : List Char) : List Char :=
  ((cs.dropWhile isPySpace).reverse.dropWhile isPySpace).reverse

/-- A token of a line: Python represents this union as `float`-vs-`str`
and dispatches with `isinstance`; we make the variant explicit. -/
inductive Token where
  | num (v : ℚ)
  | text (s : String)
deriving DecidableEq, Repr

abbrev Line := List Token

/-- The lines dictionary of the cleaning stages: Python's insertion-ordered
`dict` keyed by the `"P<page>L<y0>"` strings, modelled as an association
list in insertion order. -/
abbrev Lines := List (String × Line)

/-! ## The numeric grammar `^(\d{1,3}(?:\.\d{3})*(?:,\d{2})?)\s?([+-]?)$`

`number_pattern.match` is compiled into `matchNumParts` below.  Greedy
scanning is complete for this pattern: after `\d{1,3}` the next construct
must start with `.`, `,`, whitespace, a sign, or the end, never a digit,
so taking fewer leading digits than available cannot help; stopping the
`(?:\.\d{3})*` star early leaves a `.` that no later construct accepts;
skipping the optional `(?:,\d{2})?` when it could match leaves a `,`;
skipping a skippable `\s?` leaves a whitespace character, which is not a
sign and not the end. -/

/-- The regex groups, structured: 1–3 lead digits, the 3-digit thousand
groups, the optional 2-digit decimal part, the optional sign. -/
structure NumParts where
  lead : List Char
  groups : List (List Char)
  dec : Option (List Char)
  sign : Option Char
deriving DecidableEq, Repr

/-- Scan `(?:\.\d{3})*` greedily: consume `.` followed by three digits as
long as possible, return the groups and the unconsumed tail. -/
def scanGroups : List Char → List (List Char) × List Char
  | c0 :: a :: b :: c :: rest =>
    if c0 = '.' ∧ a.isDigit = true ∧ b.isDigit = true ∧ c.isDigit = true then
      let r := scanGroups rest
      ([a, b, c] :: r.1, r.2)
    else ([], c0 :: a :: b :: c :: rest)
  | cs => ([], cs)

/-- Scan `(?:,\d{2})?`. -/
def scanDec : List Char → Option (List Char) × List Char
  | c0 :: a :: b :: rest =>
    if c0 = ',' ∧ a.isDigit = true ∧ b.isDigit = true then (some [a, b], rest)
    else (none, c0 :: a :: b :: rest)
  | cs => (none, cs)

/-- Scan `\s?`. -/
def scanSpace : List Char → List Char
  | c :: rest => if isPySpace c then rest else c :: rest
  | [] => []

/-- Scan `([+-]?)$`: what sign group the tail yields, `none` on no match. -/
def scanSign : List Char → Option (Option Char)
  | [] => some none
  | [c] => if c = '+' || c = '-' then some (some c) else none
  | _ => none

/-- `number_pattern.match` on a (stripped) string: the captured groups, or
`none`.  When more than three leading digits are present the regex (after
exhausting backtracking) fails, hence the length test. -/
def matchNumParts (cs : List Char) : Option NumParts :=
  let lead := cs.takeWhile Char.isDigit
  if lead.length = 0 ∨ 4 ≤ lead.length then none
  else
    let r1 := scanGroups (cs.dropWhile Char.isDigit)
    let r2 := scanDec r1.2
    match scanSign (scanSpace r2.2) with
    | some sg => some ⟨lead, r1.1, r2.1, sg⟩
    | none => none

/-- The matched substring of group 1 (`numeric_part` in the source). -/
def numericPartChars (p : NumParts) : List Char :=
  p.lead ++ p.groups.flatMap (fun g => '.' :: g)
    ++ (match p.dec with | some d => ',' :: d | none => [])

/-- `numeric_part.replace('.', '').replace(',', '.')`, fused into one
pass: `.` is removed first, so surviving `.` can only come from `,`. -/
def pyReplace : List Char → List Char
  | [] => []
  | c :: cs =>
    if c = '.' then pyReplace cs
    else (if c = ',' then '.' else c) :: pyReplace cs

/-- The natural number written by a digit string. -/
def digitsToNat (cs : List Char) : Nat :=
  cs.foldl (fun n c => 10 * n + (c.toNat - 48)) 0

/-- Not the decimal point (splitting predicate of `float` parsing). -/
def notDot (c : Char) : Bool := decide (c ≠ '.')

/-- Python's `float` on the decimal literals the pipeline produces
(digits, optionally a point and more digits), as an exact rational. -/
def parseDecimal (cs : List Char) : ℚ :=
  let ip := cs.takeWhile notDot
  match cs.dropWhile notDot with
  | '.' :: fp => (digitsToNat ip : ℚ) + (digitsToNat fp : ℚ) / 10 ^ fp.length
  | _ => (digitsToNat ip : ℚ)

/-- `float(numeric_part.replace('.', '').replace(',', '.'))`. -/
def parsedMagnitude (p : NumParts) : ℚ :=
  parseDecimal (pyReplace (numericPartChars p))

/-- The value the Danish numeral denotes, read off the grammar's
structure: the digits of the integer part with grouping dots dropped,
plus the two-decimal fraction.  This is the spec's "written magnitude",
defined independently of the `replace`-then-`float` route the code takes. -/
def writtenValue (p : NumParts) : ℚ :=
  (digitsToNat (p.lead ++ p.groups.flatMap id) : ℚ) +
    (match p.dec with | some d => (digitsToNat d : ℚ) / 100 | none => 0)

/-- One fragment through the number-parsing pass (`__parse_numbers` loop
body on a string token): strip, match the numeric grammar, on success
strip punctuation, parse, and negate on a `-` sign; otherwise keep the
original fragment. -/
def parse_fragment (s : String) : Token :=
  match matchNumParts (stripChars s.data) with
  | some p =>
    .num (if p.sign = some '-' then -(parsedMagnitude p) else parsedMagnitude p)
  | none => .text s

/-- `__parse_numbers`: unlike the later passes, this loop calls
`token.strip()` with no `isinstance` guard, so a token that is already a
number raises `AttributeError` — modelled as `Except.error ()`. -/
def parse_numbers : Line → Except Unit Line
  | [] => .ok []
  | .num _ :: _ => .error ()
  | .text s :: rest => (parse_numbers rest).map (fun r => parse_fragment s :: r)

/-! ## The cleaning passes after number parsing -/

/-- `__clean_date`: numbers pass through; text tokens are stripped. -/
def clean_date (line : Line) : Line :=
  line.map fun t =>
    match t with
    | .num v => .num v
    | .text s => .text ⟨stripChars s.data⟩

/-- `useless_tokens_pattern.match`, i.e. `^\s*\+\s*$`: greedy `\s*` stops
at the first non-space, which must be `+`; the trailing `\s*` absorbs a
final newline, so `$` is plain end of string. -/
def uselessMatch (s : String) : Bool :=
  match s.data.dropWhile isPySpace with
  | '+' :: rest => rest.all isPySpace
  | _ => false

/-- `__remove_useless_tokens`: numbers are always kept; text tokens that
are a stray `+` are dropped. -/
def remove_useless_tokens (line : Line) : Line :=
  line.filter fun t =>
    match t with
    | .num _ => true
    | .text s => !uselessMatch s

/-- `date_pattern.match`, i.e. `\d{2}\.\d{2}\s*$` anchored at the start
by `re.match`: two digits, a period, two digits, then only whitespace
(a final newline is inside `\s*`, so `$` is plain end of string). -/
def dateMatch : List Char → Bool
  | a :: b :: '.' :: c :: d :: rest =>
    a.isDigit && b.isDigit && c.isDigit && d.isDigit && rest.all isPySpace
  | _ => false

/-- `RegexpTokenizer(r'\w+').tokenize`: the maximal runs of word
characters, in order.  `acc` holds the current run reversed. -/
def wordsAux : List Char → List Char → List (List Char)
  | [], acc => if acc = [] then [] else [acc.reverse]
  | c :: cs, acc =>
    if isWordChar c then wordsAux cs (c :: acc)
    else if acc = [] then wordsAux cs [] else acc.reverse :: wordsAux cs []

/-- `' '.join(tokenizer.tokenize(token))`. -/
def joinWords (s : String) : String :=
  String.intercalate " " ((wordsAux s.data []).map fun w => ⟨w⟩)

/-- `__clean_text`: numbers and date-shaped tokens pass through; other
text is re-tokenized into space-joined words. -/
def clean_text (line : Line) : Line :=
  line.map fun t =>
    match t with
    | .num v => .num v
    | .text s => if dateMatch s.data then .text s else .text (joinWords s)

/-- `__clean_lines`: each line goes through the four passes in order
(numbers, dates, useless tokens, text).  The error of `__parse_numbers`
cannot occur here because every incoming token is still text. -/
def clean_lines (lines : Lines) : Except Unit Lines :=
  lines.mapM fun kl => do
    let l1 ← parse_numbers kl.2
    pure (kl.1, clean_text (remove_useless_tokens (clean_date l1)))

/-! ## Line filter, token filter, record builder -/

def isNum : Token → Bool
  | .num _ => true
  | .text _ => false

/-- `sum(isinstance(item, (int, float)) for item in line)`. -/
def numCount (line : Line) : Nat :=
  line.countP isNum

/-- The numeric values of a line, in order. -/
def numVals (line : Line) : List ℚ :=
  line.filterMap fun t =>
    match t with
    | .num v => some v
    | .text _ => none

/-- `__filter_lines`: keep the lines with at least two numbers, in
order (the Python loop copies surviving entries into a fresh dict). -/
def filter_lines (lines : Lines) : Lines :=
  lines.filter fun kl => decide (2 ≤ numCount kl.2)

/-- `smallest_number`'s initial value, `10**20`. -/
def sentinel : ℚ := 10 ^ 20

/-- `__filter_tokens` on one line: the loop threads the running smallest
number and the deduplicated text list; at the end the smallest number is
appended.  (During the loop only text tokens enter `clean_line`, so the
Python membership test compares strings with strings.) -/
def filterTokensLine (line : Line) : Line :=
  let r := line.foldl
    (fun (acc : ℚ × Line) t =>
      match t with
      | .num v => (if v < acc.1 then v else acc.1, acc.2)
      | .text s =>
        (acc.1, if Token.text s ∈ acc.2 then acc.2 else acc.2 ++ [Token.text s]))
    (sentinel, [])
  r.2 ++ [.num r.1]

/-- `__filter_tokens` over the dictionary. -/
def filter_tokens (lines : Lines) : Lines :=
  lines.map fun kl => (kl.1, filterTokensLine kl.2)

/-- The output record: Python builds a dict with up to the three keys
`amount`, `date`, `text`; absent keys are `none`. -/
structure Record where
  amount : Option ℚ
  date : Option String
  text : Option String
deriving DecidableEq, Repr

/-- The empty record (`json = {}`). -/
def Record.empty : Record := ⟨none, none, none⟩

/-- The loop body of `__transform_to_json`: a number sets `amount`, a
date-shaped token sets `date`, any other text sets `text` (later tokens
overwrite earlier ones). -/
def recordStep (r : Record) (t : Token) : Record :=
  match t with
  | .num v => { r with amount := some v }
  | .text s =>
    if dateMatch s.data then { r with date := some s } else { r with text := some s }

/-- `__transform_to_json` on one line. -/
def buildRecord (line : Line) : Record :=
  line.foldl recordStep Record.empty

/-- `__transform_to_json`: one record per line, in order. -/
def transform_to_json (lines : Lines) : List Record :=
  lines.map fun kl => buildRecord kl.2

/-- The post-extraction pipeline of `process_pdf`: clean, filter lines,
filter tokens, build records. -/
def process_lines (lines : Lines) : Except Unit (List Record) := do
  let c ← clean_lines lines
  pure (transform_to_json (filter_tokens (filter_lines c)))

/-! ## Auxiliary readings of the token-filter fold -/

/-- The running minimum of `__filter_tokens`, started at `a`. -/
def minFold (a : ℚ) (vs : List ℚ) : ℚ :=
  vs.foldl (fun s v => if v < s then v else s) a

/-- The text-deduplication part of the `__filter_tokens` loop, started
from an accumulator `c`. -/
def dedupFold (c : Line) (line : Line) : Line :=
  line.foldl
    (fun c t =>
      match t with
      | .num _ => c
      | .text s => if Token.text s ∈ c then c else c ++ [Token.text s])
    c

/-- The `smallest_number` a line yields. -/
def smallestOf (line : Line) : ℚ := minFold sentinel (numVals line)

/-- The deduplicated text tokens of a line, first occurrences first. -/
def dedupTexts (line : Line) : Line := dedupFold [] line

/-- The minimum of the numeric tokens present in a line, when any. -/
def minNums (line : Line) : Option ℚ := (numVals line).min?

/-! ## Character and list lemmas -/

theorem isPySpace_not_digit {c : Char} (h : isPySpace c = true) :
    c.isDigit = false := by
  simp only [isPySpace, Bool.or_eq_true, decide_eq_true_eq] at h
  rcases h with ((((h | h) | h) | h) | h) | h <;> subst h <;> decide

theorem isDigit_not_space {c : Char} (h : c.isDigit = true) :
    isPySpace c = false := by
  cases hs : isPySpace c with
  | false => rfl
  | true => rw [isPySpace_not_digit hs] at h; exact absurd h (by simp)

theorem isDigit_ne_dot {c : Char} (h : c.isDigit = true) : c ≠ '.' := by
  intro e; subst e; exact absurd h (by decide)

theorem isDigit_ne_comma {c : Char} (h : c.isDigit = true) : c ≠ ',' := by
  intro e; subst e; exact absurd h (by decide)

theorem dropWhile_append_all {p : Char → Bool} {l : List Char}
    (h : ∀ c ∈ l, p c = true) (r : List Char) :
    (l ++ r).dropWhile p = r.dropWhile p := by
  induction l with
  | nil => rfl
  | cons a l ih =>
    simp only [List.cons_append, List.dropWhile_cons, h a (by simp), if_true]
    exact ih (fun c hc => h c (by simp [hc]))

theorem notDot_of_ne {c : Char} (h : c ≠ '.') : notDot c = true := by
  simp [notDot, h]

theorem notDot_dot : notDot '.' = false := by simp [notDot]

theorem takeWhile_split_at_dot {ip : List Char} (h : ∀ c ∈ ip, c ≠ '.')
    (fp : List Char) :
    (ip ++ '.' :: fp).takeWhile notDot = ip ∧
      (ip ++ '.' :: fp).dropWhile notDot = '.' :: fp := by
  induction ip with
  | nil =>
    rw [List.nil_append]
    constructor
    · rw [List.takeWhile_cons, notDot_dot]; rfl
    · rw [List.dropWhile_cons, notDot_dot]; rfl
  | cons a ip ih =>
    have ha := notDot_of_ne (h a (by simp))
    have hrest := ih (fun c hc => h c (by simp [hc]))
    constructor
    · rw [List.cons_append, List.takeWhile_cons, ha]
      simp only [if_true, hrest.1]
    · rw [List.cons_append, List.dropWhile_cons, ha]
      simp only [if_true, hrest.2]

theorem takeWhile_no_dot {l : List Char} (h : ∀ c ∈ l, c ≠ '.') :
    l.takeWhile notDot = l ∧ l.dropWhile notDot = [] := by
  induction l with
  | nil => simp
  | cons a l ih =>
    have ha := notDot_of_ne (h a (by simp))
    have hrest := ih (fun c hc => h c (by simp [hc]))
    constructor
    · rw [List.takeWhile_cons, ha]; simp only [if_true, hrest.1]
    · rw [List.dropWhile_cons, ha]; simp only [if_true, hrest.2]

theorem parseDecimal_int {l : List Char} (h : ∀ c ∈ l, c ≠ '.') :
    parseDecimal l = (digitsToNat l : ℚ) := by
  have := takeWhile_no_dot h
  simp only [parseDecimal, this.1, this.2]

theorem parseDecimal_frac {ip : List Char} (h : ∀ c ∈ ip, c ≠ '.')
    (fp : List Char) :
    parseDecimal (ip ++ '.' :: fp) =
      (digitsToNat ip : ℚ) + (digitsToNat fp : ℚ) / 10 ^ fp.length := by
  have := takeWhile_split_at_dot h fp
  simp only [parseDecimal, this.1, this.2]

theorem pyReplace_append (l r : List Char) :
    pyReplace (l ++ r) = pyReplace l ++ pyReplace r := by
  induction l with
  | nil => rfl
  | cons a l ih =>
    by_cases ha : a = '.' <;> by_cases hb : a = ',' <;>
      simp [pyReplace, ha, hb, ih]

theorem pyReplace_digits {l : List Char} (h : ∀ c ∈ l, c.isDigit = true) :
    pyReplace l = l := by
  induction l with
  | nil => rfl
  | cons a l ih =>
    have ha := h a (by simp)
    simp [pyReplace, isDigit_ne_dot ha, isDigit_ne_comma ha,
      ih (fun c hc => h c (by simp [hc]))]

/-! ## Shape of a successful numeric-grammar match -/

theorem scanGroups_digits :
    ∀ cs : List Char, ∀ g ∈ (scanGroups cs).1, ∀ c ∈ g, c.isDigit = true := by
  intro cs
  induction cs using scanGroups.induct with
  | case1 c0 a b c rest hd ih =>
    intro g hg ch hch
    rw [scanGroups, if_pos hd] at hg
    simp only [List.mem_cons] at hg
    rcases hg with hg | hg
    · subst hg
      simp only [List.mem_cons, List.not_mem_nil, or_false] at hch
      rcases hch with h | h | h <;> subst h
      · exact hd.2.1
      · exact hd.2.2.1
      · exact hd.2.2.2
    · exact ih g hg ch hch
  | case2 c0 a b c rest hd =>
    intro g hg
    rw [scanGroups, if_neg hd] at hg
    simp at hg
  | case3 cs hne =>
    intro g hg
    rcases cs with _ | ⟨c0, _ | ⟨a, _ | ⟨b, _ | ⟨c, rest⟩⟩⟩⟩
    · simp [scanGroups] at hg
    · simp [scanGroups] at hg
    · simp [scanGroups] at hg
    · simp [scanGroups] at hg
    · exact absurd rfl (hne c0 a b c rest)

theorem scanDec_shape :
    ∀ cs : List Char, ∀ d, (scanDec cs).1 = some d →
      (∀ c ∈ d, c.isDigit = true) ∧ d.length = 2 := by
  intro cs d h
  rcases cs with _ | ⟨c0, _ | ⟨a, _ | ⟨b, rest⟩⟩⟩
  · simp [scanDec] at h
  · simp [scanDec] at h
  · simp [scanDec] at h
  · rw [scanDec] at h
    split at h
    · rename_i hd
      injection h with h
      subst h
      refine ⟨?_, rfl⟩
      intro c hc
      simp only [List.mem_cons, List.not_mem_nil, or_false] at hc
      rcases hc with h | h <;> subst h
      · exact hd.2.1
      · exact hd.2.2
    · exact absurd h (by simp)

/-- What a successful `number_pattern` match guarantees about the
captured groups: lead and thousand groups are digits, the decimal part
is two digits. -/
theorem matchNumParts_shape {cs : List Char} {p : NumParts}
    (h : matchNumParts cs = some p) :
    (∀ c ∈ p.lead, c.isDigit = true) ∧
      (∀ g ∈ p.groups, ∀ c ∈ g, c.isDigit = true) ∧
      (∀ d, p.dec = some d → (∀ c ∈ d, c.isDigit = true) ∧ d.length = 2) := by
  rw [matchNumParts] at h
  split at h
  · exact absurd h (by simp)
  · dsimp only at h
    split at h
    · injection h with h
      subst h
      refine ⟨?_, ?_, ?_⟩
      · intro c hc
        exact List.mem_takeWhile_imp hc
      · exact scanGroups_digits _
      · exact scanDec_shape _
    · exact absurd h (by simp)

theorem pyReplace_dotted_groups {gs : List (List Char)}
    (h : ∀ g ∈ gs, ∀ c ∈ g, c.isDigit = true) :
    pyReplace (gs.flatMap (fun g => '.' :: g)) = gs.flatMap id := by
  induction gs with
  | nil => rfl
  | cons g gs ih =>
    have hgd : ∀ c ∈ g, c.isDigit = true := h g (by simp)
    rw [List.flatMap_cons, List.flatMap_cons, pyReplace_append]
    have : pyReplace ('.' :: g) = g := by
      rw [pyReplace, if_pos rfl, pyReplace_digits hgd]
    rw [this, ih (fun g' hg' => h g' (by simp [hg']))]
    rfl

/-- The `replace('.', '').replace(',', '.')`-then-`float` route computes
exactly the value the Danish numeral denotes. -/
theorem parsedMagnitude_eq_writtenValue {cs : List Char} {p : NumParts}
    (h : matchNumParts cs = some p) : parsedMagnitude p = writtenValue p := by
  obtain ⟨hl, hg, hd⟩ := matchNumParts_shape h
  have hI : ∀ c ∈ p.lead ++ p.groups.flatMap id, c.isDigit = true := by
    intro c hc
    rcases List.mem_append.mp hc with hc | hc
    · exact hl c hc
    · obtain ⟨g, hg', hc'⟩ := List.mem_flatMap.mp hc
      exact hg g hg' c hc'
  have hIne : ∀ c ∈ p.lead ++ p.groups.flatMap id, c ≠ '.' :=
    fun c hc => isDigit_ne_dot (hI c hc)
  rw [parsedMagnitude, writtenValue, numericPartChars]
  cases hdec : p.dec with
  | none =>
    dsimp only
    rw [List.append_nil, pyReplace_append, pyReplace_digits hl,
      pyReplace_dotted_groups hg, parseDecimal_int hIne, add_zero]
  | some d =>
    obtain ⟨hdd, hd2⟩ := hd d hdec
    dsimp only
    have hcomma : pyReplace (',' :: d) = '.' :: d := by
      rw [pyReplace]
      have : (',' : Char) ≠ '.' := by decide
      rw [if_neg this, if_pos rfl, pyReplace_digits hdd]
    rw [List.append_assoc, pyReplace_append, pyReplace_append,
      pyReplace_digits hl, pyReplace_dotted_groups hg, hcomma,
      ← List.append_assoc, parseDecimal_frac hIne, hd2]
    norm_num

/-! ## The token-filter fold, split into its two accumulators -/

theorem filterTokens_fold (line : Line) :
    ∀ (a : ℚ) (c : Line),
      line.foldl
        (fun (acc : ℚ × Line) t =>
          match t with
          | .num v => (if v < acc.1 then v else acc.1, acc.2)
          | .text s =>
            (acc.1,
              if Token.text s ∈ acc.2 then acc.2 else acc.2 ++ [Token.text s]))
        (a, c) =
      (minFold a (numVals line), dedupFold c line) := by
  induction line with
  | nil => intro a c; rfl
  | cons t rest ih =>
    intro a c
    cases t with
    | num v =>
      rw [List.foldl_cons]
      dsimp only
      rw [ih]
      rfl
    | text s =>
      rw [List.foldl_cons]
      dsimp only
      rw [ih]
      rfl

theorem filterTokensLine_eq (line : Line) :
    filterTokensLine line = dedupTexts line ++ [.num (smallestOf line)] := by
  rw [filterTokensLine, filterTokens_fold line sentinel []]
  rfl

theorem minFold_le_init : ∀ (vs : List ℚ) (a : ℚ), minFold a vs ≤ a := by
  intro vs
  induction vs with
  | nil => intro a; exact le_refl a
  | cons v vs ih =>
    intro a
    rw [minFold, List.foldl_cons]
    refine le_trans (ih _) ?_
    split
    · exact le_of_lt (by assumption)
    · exact le_refl a

theorem minFold_le_mem :
    ∀ (vs : List ℚ) (a v : ℚ), v ∈ vs → minFold a vs ≤ v := by
  intro vs
  induction vs with
  | nil => intro a v hv; exact absurd hv (List.not_mem_nil v)
  | cons w vs ih =>
    intro a v hv
    rw [minFold, List.foldl_cons]
    rcases List.mem_cons.mp hv with hv | hv
    · subst hv
      refine le_trans (minFold_le_init vs _) ?_
      split
      · exact le_refl v
      · exact le_of_not_lt (by assumption)
    · exact ih _ v hv

theorem minFold_cases :
    ∀ (vs : List ℚ) (a : ℚ), minFold a vs = a ∨ minFold a vs ∈ vs := by
  intro vs
  induction vs with
  | nil => intro a; exact Or.inl rfl
  | cons v vs ih =>
    intro a
    rw [show minFold a (v :: vs) = minFold (if v < a then v else a) vs from rfl]
    rcases ih (if v < a then v else a) with h | h
    · rw [h]
      split
      · exact Or.inr (by simp)
      · exact Or.inl rfl
    · exact Or.inr (List.mem_cons_of_mem _ h)

theorem numVals_append (l r : Line) :
    numVals (l ++ r) = numVals l ++ numVals r := by
  rw [numVals, numVals, numVals, List.filterMap_append]

theorem numVals_dedupFold (line : Line) :
    ∀ c : Line, numVals (dedupFold c line) = numVals c := by
  induction line with
  | nil => intro c; rfl
  | cons t rest ih =>
    intro c
    cases t with
    | num v => rw [dedupFold, List.foldl_cons]; exact ih c
    | text s =>
      refine Eq.trans
        (ih (if Token.text s ∈ c then c else c ++ [Token.text s])) ?_
      split
      · rfl
      · rw [numVals_append]
        show numVals c ++ [] = numVals c
        exact List.append_nil _

theorem numVals_dedupTexts (line : Line) : numVals (dedupTexts line) = [] := by
  rw [dedupTexts, numVals_dedupFold]
  rfl

theorem dedupFold_nums (vs : List ℚ) :
    ∀ c : Line, dedupFold c (vs.map Token.num) = c := by
  induction vs with
  | nil => intro c; rfl
  | cons v vs ih =>
    intro c
    rw [List.map_cons, dedupFold, List.foldl_cons]
    exact ih c

/-! ## Record-builder lemmas -/

theorem buildRecord_concat (line : Line) (t : Token) :
    buildRecord (line ++ [t]) = recordStep (buildRecord line) t := by
  rw [buildRecord, buildRecord, List.foldl_append]
  rfl

theorem foldl_recordStep_amount :
    ∀ (line : Line) (r : Record) (v : ℚ),
      (line.foldl recordStep r).amount = some v →
        Token.num v ∈ line ∨ r.amount = some v := by
  intro line
  induction line with
  | nil => intro r v h; exact Or.inr h
  | cons t rest ih =>
    intro r v h
    rw [List.foldl_cons] at h
    rcases ih (recordStep r t) v h with h' | h'
    · exact Or.inl (List.mem_cons_of_mem _ h')
    · cases t with
      | num w =>
        rw [recordStep] at h'
        simp only [Option.some.injEq] at h'
        subst h'
        exact Or.inl (List.mem_cons_self _ _)
      | text s =>
        rw [recordStep] at h'
        split at h' <;> exact Or.inr h'

/-! ## The cleaning stages preserve the numeric tokens exactly -/

theorem numVals_clean_date (line : Line) :
    numVals (clean_date line) = numVals line := by
  induction line with
  | nil => rfl
  | cons t rest ih =>
    cases t with
    | num v => exact congrArg (fun l => v :: l) ih
    | text s => exact ih

theorem numVals_clean_text (line : Line) :
    numVals (clean_text line) = numVals line := by
  induction line with
  | nil => rfl
  | cons t rest ih =>
    cases t with
    | num v => exact congrArg (fun l => v :: l) ih
    | text s =>
      show numVals ((if dateMatch s.data then Token.text s
        else Token.text (joinWords s)) :: clean_text rest) = numVals rest
      split <;> exact ih

theorem numVals_remove_useless (line : Line) :
    numVals (remove_useless_tokens line) = numVals line := by
  induction line with
  | nil => rfl
  | cons t rest ih =>
    cases t with
    | num v => exact congrArg (fun l => v :: l) ih
    | text s =>
      cases hu : uselessMatch s with
      | true =>
        have hr : remove_useless_tokens (Token.text s :: rest) =
            remove_useless_tokens rest := by
          rw [remove_useless_tokens, remove_useless_tokens, List.filter_cons]
          simp [hu]
        rw [hr]
        exact ih
      | false =>
        have hr : remove_useless_tokens (Token.text s :: rest) =
            Token.text s :: remove_useless_tokens rest := by
          rw [remove_useless_tokens, remove_useless_tokens, List.filter_cons]
          simp [hu]
        rw [hr]
        exact ih

/-! ## Date-shaped strings never match the numeric grammar -/

theorem scanGroups_date {m1 m2 : Char} {ws : List Char}
    (hws : ∀ c ∈ ws, isPySpace c = true) :
    scanGroups ('.' :: m1 :: m2 :: ws) = ([], '.' :: m1 :: m2 :: ws) := by
  cases ws with
  | nil => rfl
  | cons w ws' =>
    have hw : w.isDigit = false := isPySpace_not_digit (hws w (by simp))
    have hc : ¬(('.' : Char) = '.' ∧ m1.isDigit = true ∧ m2.isDigit = true ∧
        w.isDigit = true) := by
      intro hc
      rw [hw] at hc
      exact absurd hc.2.2.2 (by simp)
    rw [scanGroups, if_neg hc]

theorem matchNumParts_date {d1 d2 m1 m2 : Char} {ws : List Char}
    (h1 : d1.isDigit = true) (h2 : d2.isDigit = true) (h3 : m1.isDigit = true)
    (h4 : m2.isDigit = true) (hws : ∀ c ∈ ws, isPySpace c = true) :
    matchNumParts (d1 :: d2 :: '.' :: m1 :: m2 :: ws) = none := by
  have hdot : ('.' : Char).isDigit = false := by decide
  have htake : (d1 :: d2 :: '.' :: m1 :: m2 :: ws).takeWhile Char.isDigit =
      [d1, d2] := by
    simp [List.takeWhile_cons, h1, h2, hdot]
  have hdrop : (d1 :: d2 :: '.' :: m1 :: m2 :: ws).dropWhile Char.isDigit =
      '.' :: m1 :: m2 :: ws := by
    simp [List.dropWhile_cons, h1, h2, hdot]
  have hsd : scanDec ('.' :: m1 :: m2 :: ws) = (none, '.' :: m1 :: m2 :: ws) := by
    have hc : ¬(('.' : Char) = ',' ∧ m1.isDigit = true ∧ m2.isDigit = true) := by
      intro hc
      exact absurd hc.1 (by decide)
    rw [scanDec, if_neg hc]
  have hss : scanSpace ('.' :: m1 :: m2 :: ws) = '.' :: m1 :: m2 :: ws := by
    rw [scanSpace, if_neg]
    intro hc
    exact absurd hc (by decide)
  have hsn : scanSign ('.' :: m1 :: m2 :: ws) = none := rfl
  rw [matchNumParts]
  simp only [htake, hdrop, scanGroups_date hws, hsd, hss, hsn,
    List.length_cons, List.length_nil]
  norm_num

theorem stripChars_date {d1 d2 m1 m2 : Char} {ws : List Char}
    (h1 : d1.isDigit = true) (h4 : m2.isDigit = true)
    (hws : ∀ c ∈ ws, isPySpace c = true) :
    stripChars ([d1, d2, '.', m1, m2] ++ ws) = [d1, d2, '.', m1, m2] := by
  rw [stripChars]
  have step1 : ([d1, d2, '.', m1, m2] ++ ws).dropWhile isPySpace =
      [d1, d2, '.', m1, m2] ++ ws := by
    rw [List.cons_append, List.dropWhile_cons, isDigit_not_space h1]
    simp
  rw [step1, List.reverse_append,
    show [d1, d2, '.', m1, m2].reverse = [m2, m1, '.', d2, d1] from rfl,
    dropWhile_append_all (fun c hc => hws c (List.mem_reverse.mp hc)),
    List.dropWhile_cons, isDigit_not_space h4]
  simp

theorem mem_numVals {v : ℚ} {l : Line} (h : Token.num v ∈ l) :
    v ∈ numVals l :=
  List.mem_filterMap.mpr ⟨Token.num v, h, rfl⟩

theorem not_num_mem_dedupTexts (line : Line) (v : ℚ) :
    Token.num v ∉ dedupTexts line := by
  intro h
  have := mem_numVals h
  rw [numVals_dedupTexts] at this
  exact absurd this (List.not_mem_nil v)

/-! ## The Line Grouper (`__extract_lines`)

The XML tree produced by the converter.  Attributes are modelled as typed
fields: `pageid` is read (as `int(...)`) only on `LTPage` elements, `y0`
(as `float(...)`) only on `LTTextLineHorizontal` elements; on other
elements they are irrelevant.  The Python grouping key
`"P" + str(page_num) + "L" + str(y0)` is in bijection with the pair
`(page_num, y0)` — `str(page_num)` contains no `'L'` and neither does
`str(y0)` — so the key is modelled as that pair. -/

inductive Xml where
  | elem (tag : String) (pageid : Int) (y0 : ℚ) (txt : Option String)
      (children : List Xml)

def Xml.tag : Xml → String
  | .elem t _ _ _ _ => t

def Xml.pageid : Xml → Int
  | .elem _ p _ _ _ => p

def Xml.y0 : Xml → ℚ
  | .elem _ _ y _ _ => y

def Xml.txt : Xml → Option String
  | .elem _ _ _ t _ => t

def Xml.children : Xml → List Xml
  | .elem _ _ _ _ cs => cs

mutual

/-- All descendants of an element in document (preorder) order, the
element itself excluded — ElementTree's `.//` axis. -/
def descendants : Xml → List Xml
  | .elem _ _ _ _ cs => descendantsList cs

def descendantsList : List Xml → List Xml
  | [] => []
  | c :: cs => c :: descendants c ++ descendantsList cs

end

/-- `findall(".//<tag>")`. -/
def findall (x : Xml) (tag : String) : List Xml :=
  (descendants x).filter fun e => e.tag == tag

/-- The key under which a line's fragments are grouped: the Python string
`"P<page>L<y0>"`, modelled as the pair it encodes. -/
abbrev LKey := Int × ℚ

def lineKey (page ln : Xml) : LKey := (page.pageid, ln.y0)

/-- `line.text or line.find(".//LTTextBoxHorizontal").text`: the direct
text when truthy (non-`None`, non-empty), else the text of the first
nested text-box child; `AttributeError` (modelled as `Except.error`) when
the fallback is taken and no such child exists.  The child's own text may
be `None`, hence the `Option String` payload. -/
def fallbackText (ln : Xml) : Except Unit (Option String) :=
  match (descendants ln).find? (fun e => e.tag == "LTTextBoxHorizontal") with
  | some tb => .ok tb.txt
  | none => .error ()

def lineText (ln : Xml) : Except Unit (Option String) :=
  match ln.txt with
  | some t => if t = "" then fallbackText ln else .ok (some t)
  | none => fallbackText ln

/-- The (page, line) element pairs in traversal order: for each `LTPage`
descendant of the root, each `LTTextLineHorizontal` descendant of it. -/
def linePairs (root : Xml) : List (Xml × Xml) :=
  (findall root "LTPage").flatMap fun p =>
    (findall p "LTTextLineHorizontal").map fun ln => (p, ln)

/-- One dictionary update of `__extract_lines`: Python's
`lines[index].append(t)` when the key is present, else
`lines[index] = [t]`, which inserts the new entry at the end (insertion
order).  The ordered dict is an association list with pairwise distinct
keys; the update rewrites the unique entry holding the key. -/
def upsert : List (LKey × List (Option String)) → LKey → Option String →
    List (LKey × List (Option String))
  | [], k, v => [(k, [v])]
  | kv :: m, k, v =>
    if kv.1 = k then (kv.1, kv.2 ++ [v]) :: m else kv :: upsert m k v

/-- Ordered-dict lookup. -/
def lookupA : List (LKey × List (Option String)) → LKey →
    Option (List (Option String))
  | [], _ => none
  | kv :: m, k => if kv.1 = k then some kv.2 else lookupA m k

/-- The loop body of `__extract_lines` for one line element: extract its
fragment, then update the dictionary under its key. -/
def extractStep (m : List (LKey × List (Option String))) (pl : Xml × Xml) :
    Except Unit (List (LKey × List (Option String))) := do
  let t ← lineText pl.2
  pure (upsert m (lineKey pl.1 pl.2) t)

/-- A line element's key-fragment pair. -/
def fragOf (pl : Xml × Xml) : Except Unit (LKey × Option String) := do
  let t ← lineText pl.2
  pure (lineKey pl.1 pl.2, t)

/-- `__extract_lines`: walk the pages and lines, extracting each line's
fragment and upserting it under the line's key. -/
def extract_lines (root : Xml) :
    Except Unit (List (LKey × List (Option String))) :=
  (linePairs root).foldlM extractStep []

/-- The fragments paired with their keys, in traversal order (the pure
content of the traversal, before grouping). -/
def fragPairs (root : Xml) : Except Unit (List (LKey × Option String)) :=
  (linePairs root).mapM fragOf

/-- Grouping a key-fragment list by upserts, as the dict loop does. -/
def groupFold (ps : List (LKey × Option String)) :
    List (LKey × List (Option String)) :=
  ps.foldl (fun m kv => upsert m kv.1 kv.2) []

/-! ## Ordered-dict grouping lemmas -/

theorem lookupA_upsert_same :
    ∀ (m : List (LKey × List (Option String))) (k : LKey) (v : Option String),
      lookupA (upsert m k v) k = some ((lookupA m k).getD [] ++ [v]) := by
  intro m k v
  induction m with
  | nil => simp [upsert, lookupA]
  | cons kv m ih =>
    rw [upsert]
    by_cases hk : kv.1 = k
    · rw [if_pos hk, lookupA, if_pos hk, lookupA, if_pos hk]
      rfl
    · rw [if_neg hk, lookupA, if_neg hk, lookupA, if_neg hk, ih]

theorem lookupA_upsert_other :
    ∀ (m : List (LKey × List (Option String))) (k k' : LKey)
      (v : Option String), k' ≠ k →
      lookupA (upsert m k v) k' = lookupA m k' := by
  intro m k k' v h
  induction m with
  | nil =>
    rw [upsert, lookupA, lookupA]
    exact if_neg fun e => h e.symm
  | cons kv m ih =>
    rw [upsert]
    by_cases hk : kv.1 = k
    · have hk' : ¬kv.1 = k' := fun e => h (e ▸ hk)
      rw [if_pos hk, lookupA, lookupA, if_neg (by simpa using hk'),
        if_neg hk']
    · rw [if_neg hk, lookupA, lookupA]
      by_cases hk2 : kv.1 = k'
      · rw [if_pos hk2, if_pos hk2]
      · rw [if_neg hk2, if_neg hk2, ih]

/-- The grouping invariant of the dict loop: after folding upserts over
`ps` starting from `m0`, the entry of key `k` holds its previous content
extended by the fragments of `ps` keyed `k`, in encounter order. -/
theorem lookupA_foldl_upsert :
    ∀ (ps : List (LKey × Option String))
      (m0 : List (LKey × List (Option String))) (k : LKey),
      lookupA (ps.foldl (fun m kv => upsert m kv.1 kv.2) m0) k =
        match lookupA m0 k with
        | some l =>
          some (l ++ (ps.filter fun kv => decide (kv.1 = k)).map Prod.snd)
        | none =>
          if (ps.filter fun kv => decide (kv.1 = k)) = [] then none
          else some ((ps.filter fun kv => decide (kv.1 = k)).map Prod.snd)
  := by
  intro ps
  induction ps with
  | nil =>
    intro m0 k
    cases h : lookupA m0 k <;> simp [h]
  | cons kv ps ih =>
    intro m0 k
    rw [List.foldl_cons, ih (upsert m0 kv.1 kv.2) k]
    by_cases hk : kv.1 = k
    · subst hk
      rw [lookupA_upsert_same, List.filter_cons_of_pos (by simp)]
      cases h : lookupA m0 kv.1 with
      | none => simp [h]
      | some l => simp [h]
    · rw [lookupA_upsert_other m0 kv.1 k kv.2 (fun e => hk e.symm),
        List.filter_cons_of_neg (by simpa using hk)]

theorem lookupA_groupFold (ps : List (LKey × Option String)) (k : LKey) :
    lookupA (groupFold ps) k =
      if (ps.filter fun kv => decide (kv.1 = k)) = [] then none
      else some ((ps.filter fun kv => decide (kv.1 = k)).map Prod.snd) := by
  rw [groupFold, lookupA_foldl_upsert ps [] k]
  rfl

/-- The effectful dict loop is the pure grouping of the traversal's
key-fragment pairs (and errors exactly when some fragment extraction
errors). -/
theorem foldlM_extractStep :
    ∀ (ps : List (Xml × Xml)) (m0 : List (LKey × List (Option String))),
      ps.foldlM extractStep m0 =
        (ps.mapM fragOf).map fun fs =>
          fs.foldl (fun m kv => upsert m kv.1 kv.2) m0 := by
  intro ps
  induction ps with
  | nil => intro m0; rfl
  | cons pl ps ih =>
    intro m0
    rw [List.foldlM_cons, List.mapM_cons]
    rw [extractStep, fragOf]
    cases h : lineText pl.2 with
    | error e => rfl
    | ok t =>
      show ps.foldlM extractStep (upsert m0 (lineKey pl.1 pl.2) t) = _
      rw [ih]
      cases hm : ps.mapM fragOf with
      | error e => rfl
      | ok fs => rfl

theorem extract_lines_eq (root : Xml) :
    extract_lines root = (fragPairs root).map groupFold := by
  rw [extract_lines, fragPairs, foldlM_extractStep]
  rfl

/-- A successful traversal's pairs carry exactly the traversal's keys, in
order. -/
theorem mapM_fragOf_keys :
    ∀ (ps : List (Xml × Xml)) (fs : List (LKey × Option String)),
      ps.mapM fragOf = .ok fs →
        fs.map Prod.fst = ps.map fun pl => lineKey pl.1 pl.2 := by
  intro ps
  induction ps with
  | nil =>
    intro fs h
    rw [List.mapM_nil] at h
    injection h with h
    subst h
    rfl
  | cons pl ps ih =>
    intro fs h
    rw [List.mapM_cons, fragOf] at h
    cases ht : lineText pl.2 with
    | error e =>
      rw [ht] at h
      exact Except.noConfusion h
    | ok t =>
      rw [ht] at h
      cases hm : ps.mapM fragOf with
      | error e =>
        rw [hm] at h
        exact Except.noConfusion h
      | ok fs' =>
        rw [hm] at h
        have : fs = (lineKey pl.1 pl.2, t) :: fs' := by
          have h' : Except.ok ((lineKey pl.1 pl.2, t) :: fs') = Except.ok fs
            := h
          injection h' with h'
          exact h'.symm
        subst this
        rw [List.map_cons, List.map_cons, ih fs' hm]

/-! ## The claims -/

/-- C1 (counterexample): the line `[2·10^20, 3·10^20]` has two numeric
tokens, so it survives the Line Filter; the Token Filter outputs the
sentinel `10^20` as the single numeric token, which differs from the
minimum `2·10^20` of the numeric tokens present before filtering. -/
theorem C1_cex :
    2 ≤ numCount [Token.num (2 * 10 ^ 20), Token.num (3 * 10 ^ 20)] ∧
    filterTokensLine [Token.num (2 * 10 ^ 20), Token.num (3 * 10 ^ 20)] =
      [Token.num (10 ^ 20)] ∧
    minNums [Token.num (2 * 10 ^ 20), Token.num (3 * 10 ^ 20)] =
      some (2 * 10 ^ 20) ∧
    (10 ^ 20 : ℚ) ≠ 2 * 10 ^ 20 :=
  ⟨by decide, by with_unfolding_all rfl, by with_unfolding_all rfl,
    by with_unfolding_all decide⟩

/-- C1 (amended): for every line surviving the Line Filter, the Token
Filter's output contains exactly one numeric token, placed last; its
value is the minimum of the numeric tokens and the sentinel `10^20` —
hence a lower bound of all numeric tokens, and equal to their minimum
whenever any of them lies below the sentinel. -/
theorem C1_token_filter_amended (line : Line) (h : 2 ≤ numCount line) :
    numVals (filterTokensLine line) = [smallestOf line] ∧
    (filterTokensLine line).getLast? = some (Token.num (smallestOf line)) ∧
    (∀ v ∈ numVals line, smallestOf line ≤ v) ∧
    (smallestOf line = sentinel ∨ smallestOf line ∈ numVals line) := by
  refine ⟨?_, ?_, ?_, ?_⟩
  · rw [filterTokensLine_eq, numVals_append, numVals_dedupTexts]
    rfl
  · rw [filterTokensLine_eq]
    exact List.getLast?_concat _
  · intro v hv
    exact minFold_le_mem (numVals line) sentinel v hv
  · exact minFold_cases (numVals line) sentinel

/-- C1 (witness): the amended statement at the concrete line
`[5, 2, "x"]`. -/
theorem C1_token_filter_amended_witness :
    numVals (filterTokensLine [Token.num 5, Token.num 2, Token.text "x"]) =
      [smallestOf [Token.num 5, Token.num 2, Token.text "x"]] ∧
    (filterTokensLine [Token.num 5, Token.num 2, Token.text "x"]).getLast? =
      some (Token.num (smallestOf [Token.num 5, Token.num 2,
        Token.text "x"])) ∧
    (∀ v ∈ numVals [Token.num 5, Token.num 2, Token.text "x"],
      smallestOf [Token.num 5, Token.num 2, Token.text "x"] ≤ v) ∧
    (smallestOf [Token.num 5, Token.num 2, Token.text "x"] = sentinel ∨
      smallestOf [Token.num 5, Token.num 2, Token.text "x"] ∈
        numVals [Token.num 5, Token.num 2, Token.text "x"]) :=
  C1_token_filter_amended [Token.num 5, Token.num 2, Token.text "x"]
    (by decide)

set_option maxRecDepth 8000 in
/-- C2: the post-extraction pipeline on the single line
`["Gjensidige Forsikring ", "03.10 ", "494,42 - ", "3.291,68 "]`
produces exactly the record
`{text: "Gjensidige Forsikring", date: "03.10", amount: -494.42}`. -/
theorem C2_end_to_end :
    process_lines [("P1L468.447",
      [Token.text "Gjensidige Forsikring ", Token.text "03.10 ",
       Token.text "494,42 - ", Token.text "3.291,68 "])] =
      Except.ok [{ amount := some (-494.42), date := some "03.10",
                   text := some "Gjensidige Forsikring" }] := by
  with_unfolding_all rfl

set_option maxRecDepth 8000 in
/-- C3: for every fragment matching the numeric grammar, the parsed value
is the written magnitude of the numeral (punctuation stripped, comma as
decimal point), negated exactly when the trailing sign is `-`; in
particular `"1.234,56 "` parses to `1234.56` and `"494,42 - "` to
`-494.42`. -/
theorem C3_number_roundtrip :
    (∀ (s : String) (p : NumParts),
      matchNumParts (stripChars s.data) = some p →
        parse_fragment s =
          Token.num (if p.sign = some '-' then -(writtenValue p)
            else writtenValue p)) ∧
    parse_fragment "1.234,56 " = Token.num 1234.56 ∧
    parse_fragment "494,42 - " = Token.num (-494.42) := by
  refine ⟨?_, by with_unfolding_all rfl, by with_unfolding_all rfl⟩
  intro s p h
  rw [parse_fragment, h]
  show Token.num (if p.sign = some '-' then -(parsedMagnitude p)
      else parsedMagnitude p) =
    Token.num (if p.sign = some '-' then -(writtenValue p)
      else writtenValue p)
  rw [parsedMagnitude_eq_writtenValue h]

/-- C4 (counterexample): a token that is already a number is not passed
through by `__parse_numbers`; the pass raises `AttributeError`
(`token.strip()` on a float) instead. -/
theorem C4_cex :
    parse_numbers [Token.num 1] = Except.error () ∧
    parse_numbers [Token.num 1] ≠ Except.ok [Token.num 1] :=
  ⟨rfl, fun h => Except.noConfusion h⟩

/-- C4 (amended): on a line of text fragments — the only shape the pass
receives in the pipeline, where it runs first — `__parse_numbers`
succeeds and maps each fragment through the grammar, leaving every
non-matching fragment unchanged; a line carrying an already-numeric token
makes the pass fail with an error instead of passing it through. -/
theorem C4_parse_numbers_amended :
    (∀ frags : List String,
      parse_numbers (frags.map Token.text) =
        Except.ok (frags.map parse_fragment)) ∧
    (∀ s : String, matchNumParts (stripChars s.data) = none →
      parse_fragment s = Token.text s) ∧
    (∀ (v : ℚ) (rest : Line),
      parse_numbers (Token.num v :: rest) = Except.error ()) := by
  refine ⟨?_, ?_, ?_⟩
  · intro frags
    induction frags with
    | nil => rfl
    | cons s frags ih =>
      rw [List.map_cons, parse_numbers, ih]
      rfl
  · intro s h
    rw [parse_fragment, h]
  · intro v rest
    rfl

/-- C5: a date-shaped string — two digits, a period, two digits,
optionally followed by whitespace — never matches the numeric grammar,
and the number-parsing pass leaves such a fragment as text. -/
theorem C5_date_not_number (d1 d2 m1 m2 : Char) (ws : List Char)
    (h1 : d1.isDigit = true) (h2 : d2.isDigit = true)
    (h3 : m1.isDigit = true) (h4 : m2.isDigit = true)
    (hws : ∀ c ∈ ws, isPySpace c = true) :
    matchNumParts ([d1, d2, '.', m1, m2] ++ ws) = none ∧
    parse_fragment ⟨[d1, d2, '.', m1, m2] ++ ws⟩ =
      Token.text ⟨[d1, d2, '.', m1, m2] ++ ws⟩ := by
  refine ⟨matchNumParts_date h1 h2 h3 h4 hws, ?_⟩
  rw [parse_fragment]
  have hstrip : stripChars (String.mk ([d1, d2, '.', m1, m2] ++ ws)).data =
      [d1, d2, '.', m1, m2] := stripChars_date h1 h4 hws
  rw [hstrip,
    @matchNumParts_date d1 d2 m1 m2 [] h1 h2 h3 h4 (by intro c hc; simp at hc)]

/-- C5 (witness): the statement at the concrete date fragment
`"03.10 "`. -/
theorem C5_date_not_number_witness :
    matchNumParts (['0', '3', '.', '1', '0'] ++ [' ']) = none ∧
    parse_fragment ⟨['0', '3', '.', '1', '0'] ++ [' ']⟩ =
      Token.text ⟨['0', '3', '.', '1', '0'] ++ [' ']⟩ :=
  C5_date_not_number '0' '3' '1' '0' [' '] (by decide) (by decide)
    (by decide) (by decide) (by decide)

/-- C6: numeric tokens are never reinterpreted as text downstream: the
date-cleanup, decorative-token-removal and text-tokenization passes
preserve the numeric tokens exactly; every numeric value the Token Filter
outputs is the untouched sentinel or an untouched numeric token of the
line; and the amount the Record Builder assigns is a numeric token of its
line, unaltered. -/
theorem C6_numeric_invariant :
    (∀ line : Line, numVals (clean_date line) = numVals line) ∧
    (∀ line : Line, numVals (remove_useless_tokens line) = numVals line) ∧
    (∀ line : Line, numVals (clean_text line) = numVals line) ∧
    (∀ (line : Line) (v : ℚ), Token.num v ∈ filterTokensLine line →
      v = sentinel ∨ v ∈ numVals line) ∧
    (∀ (line : Line) (v : ℚ), (buildRecord line).amount = some v →
      Token.num v ∈ line) := by
  refine ⟨numVals_clean_date, numVals_remove_useless, numVals_clean_text,
    ?_, ?_⟩
  · intro line v hv
    rw [filterTokensLine_eq] at hv
    rcases List.mem_append.mp hv with hv | hv
    · exact absurd hv (not_num_mem_dedupTexts line v)
    · have hv2 : v = smallestOf line := by
        simp only [List.mem_singleton, Token.num.injEq] at hv
        exact hv
      subst hv2
      exact minFold_cases (numVals line) sentinel
  · intro line v h
    rcases foldl_recordStep_amount line Record.empty v h with h' | h'
    · exact h'
    · exact absurd h' (by simp [Record.empty])

/-- C7: the Line Filter is idempotent — filtering an already-filtered
mapping of lines changes nothing. -/
theorem C7_line_filter_idempotent (lines : Lines) :
    filter_lines (filter_lines lines) = filter_lines lines := by
  rw [filter_lines, filter_lines, List.filter_filter]
  congr 1
  funext kl
  exact Bool.and_self _

/-- C8: having fewer than two numeric tokens is the only condition under
which a line is dropped (filtering is a pure membership condition, with
no error or diagnostic); every surviving line yields exactly one record;
and a surviving line with no text tokens still yields a record, with the
`text` (and `date`) fields absent and only `amount` set. -/
theorem C8_only_gate_and_textless_records :
    (∀ (lines : Lines) (kl : String × Line),
      kl ∈ filter_lines lines ↔ kl ∈ lines ∧ 2 ≤ numCount kl.2) ∧
    (∀ lines : Lines,
      (transform_to_json (filter_tokens lines)).length = lines.length) ∧
    (∀ vs : List ℚ,
      buildRecord (filterTokensLine (vs.map Token.num)) =
        { amount := some (smallestOf (vs.map Token.num)), date := none,
          text := none }) := by
  refine ⟨?_, ?_, ?_⟩
  · intro lines kl
    rw [filter_lines, List.mem_filter]
    simp
  · intro lines
    rw [transform_to_json, filter_tokens, List.length_map, List.length_map]
  · intro vs
    rw [filterTokensLine_eq,
      show dedupTexts (vs.map Token.num) = [] from dedupFold_nums vs []]
    rfl

/-- C9: a successful traversal of the XML tree groups, for every
horizontal line element, its fragment — the direct text when truthy, else
the text of the first nested text-box descendant — under the key
`(page, y0)`, creating the entry when absent and appending otherwise, so
each key's fragments appear in encounter order. -/
theorem C9_line_grouper (root : Xml) (fs : List (LKey × Option String))
    (h : fragPairs root = Except.ok fs) :
    extract_lines root = Except.ok (groupFold fs) ∧
    fs.map Prod.fst = (linePairs root).map (fun pl => lineKey pl.1 pl.2) ∧
    (∀ k : LKey, lookupA (groupFold fs) k =
      if (fs.filter fun kv => decide (kv.1 = k)) = [] then none
      else some ((fs.filter fun kv => decide (kv.1 = k)).map Prod.snd)) ∧
    (∀ (ln : Xml) (t : Option String), lineText ln = Except.ok t →
      (∃ s, ln.txt = some s ∧ s ≠ "" ∧ t = some s) ∨
      ((ln.txt = none ∨ ln.txt = some "") ∧
        ∃ tb, (descendants ln).find?
            (fun e => e.tag == "LTTextBoxHorizontal") = some tb ∧
          t = tb.txt)) := by
  refine ⟨?_, mapM_fragOf_keys _ fs h, fun k => lookupA_groupFold fs k, ?_⟩
  · rw [extract_lines_eq, fragPairs] at *
    rw [h]
    rfl
  · intro ln t hlt
    cases hln : ln.txt with
    | none =>
      rw [lineText, hln] at hlt
      rw [fallbackText] at hlt
      cases hf : (descendants ln).find?
          (fun e => e.tag == "LTTextBoxHorizontal") with
      | none => rw [hf] at hlt; exact Except.noConfusion hlt
      | some tb =>
        rw [hf] at hlt
        injection hlt with hlt
        exact Or.inr ⟨Or.inl rfl, tb, rfl, hlt.symm⟩
    | some s =>
      rw [lineText, hln] at hlt
      have hlt2 : (if s = "" then fallbackText ln else Except.ok (some s)) =
          Except.ok t := hlt
      by_cases hs : s = ""
      · rw [if_pos hs] at hlt2
        rw [fallbackText] at hlt2
        cases hf : (descendants ln).find?
            (fun e => e.tag == "LTTextBoxHorizontal") with
        | none => rw [hf] at hlt2; exact Except.noConfusion hlt2
        | some tb =>
          rw [hf] at hlt2
          injection hlt2 with hlt2
          exact Or.inr ⟨Or.inr (by rw [hs]), tb, rfl, hlt2.symm⟩
      · rw [if_neg hs] at hlt2
        injection hlt2 with hlt2
        exact Or.inl ⟨s, rfl, hs, hlt2.symm⟩

/-- C10: every record of the pipeline's output carries the `amount`
field: the Token Filter unconditionally appends one numeric token to each
surviving line and the Record Builder assigns it to `amount`. -/
theorem C10_amount_always_present (lines : Lines) :
    (transform_to_json (filter_tokens lines)).all
      (fun r => r.amount.isSome) = true := by
  rw [transform_to_json, filter_tokens, List.map_map, List.all_eq_true]
  intro r hr
  obtain ⟨kl, hkl, hr'⟩ := List.mem_map.mp hr
  rw [← hr']
  show (buildRecord (filterTokensLine kl.2)).amount.isSome = true
  rw [filterTokensLine_eq, buildRecord_concat]
  rfl

/-- C9 (witness): the grouping statement at a concrete two-line tree,
both lines sharing the key `(1, 1)`. -/
theorem C9_line_grouper_witness :
    extract_lines (Xml.elem "root" 0 0 none
        [Xml.elem "LTPage" 1 0 none
          [Xml.elem "LTTextLineHorizontal" 0 1 (some "A ") [],
           Xml.elem "LTTextLineHorizontal" 0 1 (some "B ") []]]) =
      Except.ok (groupFold [((1, 1), some "A "), ((1, 1), some "B ")]) ∧
    ([((1, 1), some "A "), ((1, 1), some "B ")].map Prod.fst :
        List LKey) =
      (linePairs (Xml.elem "root" 0 0 none
        [Xml.elem "LTPage" 1 0 none
          [Xml.elem "LTTextLineHorizontal" 0 1 (some "A ") [],
           Xml.elem "LTTextLineHorizontal" 0 1 (some "B ") []]])).map
        (fun pl => lineKey pl.1 pl.2) ∧
    (∀ k : LKey,
      lookupA (groupFold [((1, 1), some "A "), ((1, 1), some "B ")]) k =
        if ([((1, 1), some "A "), ((1, 1), some "B ")].filter
            fun kv => decide (kv.1 = k)) = [] then none
        else some (([((1, 1), some "A "), ((1, 1), some "B ")].filter
            fun kv => decide (kv.1 = k)).map Prod.snd)) ∧
    (∀ (ln : Xml) (t : Option String), lineText ln = Except.ok t →
      (∃ s, ln.txt = some s ∧ s ≠ "" ∧ t = some s) ∨
      ((ln.txt = none ∨ ln.txt = some "") ∧
        ∃ tb, (descendants ln).find?
            (fun e => e.tag == "LTTextBoxHorizontal") = some tb ∧
          t = tb.txt)) :=
  C9_line_grouper
    (Xml.elem "root" 0 0 none
      [Xml.elem "LTPage" 1 0 none
        [Xml.elem "LTTextLineHorizontal" 0 1 (some "A ") [],
         Xml.elem "LTTextLineHorizontal" 0 1 (some "B ") []]])
    [((1, 1), some "A "), ((1, 1), some "B ")]
    (by with_unfolding_all rfl)
